import Mathlib

/-!
Shallow embedding of ybyra (src/ybyra.go), a terminal dashboard for Kea DHCPv4
leases, together with proofs about its ordering, search and delete logic.

Modelling conventions:
* Go strings are Lean strings; character lists compare by code point, which
  agrees with Go's byte-wise string order (UTF-8 preserves code-point order),
  and every input in this development is ASCII.
* Go `sort.Slice` is an external library call; it is modelled by its documented
  contract (`sortSliceSpec`): the result is a permutation of the input that is
  pairwise ordered by the supplied less function.  Go explicitly documents that
  `sort.Slice` is *not* guaranteed to be stable, so nothing beyond the contract
  is assumed.
* The tview widgets are modelled by the state they expose to the code under
  test: a list is its item texts plus a current index, a table is its cell
  texts plus selection state.  `List.FindItems` is modelled as invoked by this
  program (secondary texts all empty, `mustContainBoth=false`, `ignoreCase=false`).
* Network traffic is external: fetched lease/subnet lists and decoded Kea
  responses are universally quantified parameters.
* `net.ParseIP` is modelled for dotted-decimal IPv4 input (Go ≥ 1.17 rules);
  the IPv6 branch returns `none`.  The tool is DHCPv4-only and no claim
  involves an address containing a colon.
-/

namespace Ybyra

/-- Lexicographic strict order on character lists, modelling Go's `<` on
strings (byte-wise lexicographic). -/
def charListLt : List Char → List Char → Bool
  | [], [] => false
  | [], _ :: _ => true
  | _ :: _, [] => false
  | a :: s, b :: t => if a < b then true else if b < a then false else charListLt s t

/-- Models Go's generic helper `cmp` (src/ybyra.go, cmp) instantiated at
`int`/`int64`. -/
def cmpInt (i j : Int) : Int :=
  if i = j then 0 else if i < j then -1 else 1

/-- Models Go's generic helper `cmp` (src/ybyra.go, cmp) instantiated at
`string`. -/
def cmpStr (i j : String) : Int :=
  if i = j then 0 else if charListLt i.data j.data then -1 else 1

/-- Models Go `bytes.Compare`: lexicographic comparison of byte slices, a
shorter strict prefix comparing less; a `nil` slice is the empty list. -/
def bytesCompare : List Nat → List Nat → Int
  | [], [] => 0
  | [], _ :: _ => -1
  | _ :: _, [] => 1
  | a :: s, b :: t => if a < b then -1 else if b < a then 1 else bytesCompare s t

/-- Does `sub` occur at the start of `s`?  Helper for Go `strings.Contains`. -/
def leadsWith : List Char → List Char → Bool
  | _, [] => true
  | [], _ :: _ => false
  | a :: s, b :: t => a == b && leadsWith s t

/-- Models Go `strings.Contains` on character lists: substring occurrence,
case-sensitive, the empty pattern matching everywhere. -/
def goContainsList : List Char → List Char → Bool
  | [], sub => sub.isEmpty
  | c :: rest, sub => leadsWith (c :: rest) sub || goContainsList rest sub

/-- Models Go `strings.Contains` on strings. -/
def goContains (s sub : String) : Bool := goContainsList s.data sub.data

/-- Models Go `strings.Split` for a one-character separator: the pieces of the
string between occurrences of the separator (always at least one piece). -/
def goSplitChar (sep : Char) : List Char → List (List Char)
  | [] => [[]]
  | c :: rest =>
    let gs := goSplitChar sep rest
    if c = sep then [] :: gs else (c :: gs.headD []) :: gs.tail

/-- The 16-byte form Go `net.ParseIP` returns for an IPv4 address
(IPv4-in-IPv6 layout). -/
def v4Bytes (a b c d : Nat) : List Nat :=
  [0, 0, 0, 0, 0, 0, 0, 0, 0, 0, 255, 255, a, b, c, d]

/-- One dotted-decimal field as accepted by Go `net.ParseIP` (Go ≥ 1.17 rules:
nonempty, decimal digits only, no leading zero, at most 255). -/
def parseV4Field (f : List Char) : Option Nat :=
  if f.isEmpty then none
  else if !(f.all fun c => decide ('0' ≤ c ∧ c ≤ '9')) then none
  else if decide (1 < f.length) && decide (f.headD '0' = '0') then none
  else
    let v := f.foldl (fun acc c => acc * 10 + (c.toNat - 48)) 0
    if 255 < v then none else some v

/-- Dotted-decimal IPv4 parsing as in Go `net.ParseIP`: exactly four valid
fields separated by periods. -/
def parseIPv4 (s : List Char) : Option (List Nat) :=
  match goSplitChar '.' s with
  | [f1, f2, f3, f4] =>
    match parseV4Field f1, parseV4Field f2, parseV4Field f3, parseV4Field f4 with
    | some a, some b, some c, some d => some (v4Bytes a b c d)
    | _, _, _, _ => none
  | _ => none

/-- The first period or colon in the string, if any — Go `net.ParseIP` scans
for this character to pick the address family. -/
def firstIPSep : List Char → Option Char
  | [] => none
  | c :: rest => if c = '.' ∨ c = ':' then some c else firstIPSep rest

/-- Models Go `net.ParseIP` on character lists: dotted-decimal IPv4 parses to
its 16-byte form; a string whose first separator is a colon would take the
IPv6 branch, modelled as `none` (nothing in this development uses IPv6);
anything else is `nil`, modelled as `none`. -/
def parseIPChars (s : List Char) : Option (List Nat) :=
  match firstIPSep s with
  | some c => if c = '.' then parseIPv4 s else none
  | none => none

/-- Models Go `net.ParseIP` on strings. -/
def parseIP (s : String) : Option (List Nat) := parseIPChars s.data

/-- The byte slice Go code actually passes to `bytes.Compare`: `net.ParseIP`
result, with `nil` becoming the empty slice. -/
def ipBytes (s : String) : List Nat := (parseIP s).getD []

/-- Numeric value of a byte list, big-endian base 256. -/
def byteListVal (bs : List Nat) : Nat := bs.foldl (fun acc x => acc * 256 + x) 0

/-- Numeric value of a four-byte IPv4 address. -/
def ipVal (a b c d : Nat) : Nat := ((a * 256 + b) * 256 + c) * 256 + d

/-- Command strings of the Kea control protocol (src/ybyra.go, const block). -/
abbrev command := String

def configGet : command := "config-get"

def statusGet : command := "status-get"

def lease4GetAll : command := "lease4-get-all"

def lease4Del : command := "lease4-del"

/-- Display modes (src/ybyra.go, displayMode constants). -/
abbrev displayMode := Nat

def displayLeases : displayMode := 0

def displayReserv : displayMode := 1

def displayInfo : displayMode := 2

/-- Decoded Kea response element (src/ybyra.go, KeaResponse); the `arguments`
map of raw JSON fragments is modelled as an association list of strings. -/
structure KeaResponse where
  Arguments : List (String × String)
  Result : Int
  Text : String
deriving DecidableEq

/-- DHCP option entry (src/ybyra.go, OptionData). -/
structure OptionData where
  AlwaysSend : Bool
  Code : Int
  CsvFormat : Bool
  Data : String
  Name : String
  Space : String
deriving DecidableEq

/-- Address pool (src/ybyra.go, Pool). -/
structure Pool where
  OptionData : List OptionData
  PoolRange : String
deriving DecidableEq

/-- Static reservation (src/ybyra.go, Reservation); raw JSON fragments are
modelled as strings. -/
structure Reservation where
  BootFileName : String
  ClientClasses : List String
  Hostname : String
  HwAddress : String
  IpAddress : String
  NextServer : String
  OptionData : List String
  ServerHostname : String
deriving DecidableEq

/-- Subnet record (src/ybyra.go, Subnet4); the float32 percent fields are
modelled as rationals and the relay map as an association list — no claim
reads them. -/
structure Subnet4 where
  FourSixInterface : String
  FourSixInterfaceId : String
  FourSixSubnet : String
  CalculateTeeTimes : Bool
  Id : Int
  OptionData : List OptionData
  Pools : List Pool
  RebindTimer : Int
  Relay : List (String × String)
  RenewTimer : Int
  Reservations : List Reservation
  StoreExtendedInfo : Bool
  Subnet : String
  T1Percent : Rat
  T2Percent : Rat
  ValidLifetime : Int
deriving DecidableEq

/-- Lease record (src/ybyra.go, Lease4). -/
structure Lease4 where
  ClientId : String
  Cltt : Int
  FqdnFwd : Bool
  FqdnRev : Bool
  Hostname : String
  HwAddress : String
  IpAddress : String
  State : Int
  SubnetId : Int
  ValidLft : Int
deriving DecidableEq

/-- Active sort column and direction (src/ybyra.go, SortData). -/
structure SortData where
  Column : Int
  Asc : Bool
deriving DecidableEq

/-- Models `Lease4.Compare` (src/ybyra.go): column 0 hostname, 1 parsed IP
bytes, 2 MAC, 3 state, 4 cltt, 5 client id; any other column compares equal. -/
def Lease4.Compare (l1 l2 : Lease4) (field : Int) : Int :=
  if field = 0 then cmpStr l1.Hostname l2.Hostname
  else if field = 1 then bytesCompare (ipBytes l1.IpAddress) (ipBytes l2.IpAddress)
  else if field = 2 then cmpStr l1.HwAddress l2.HwAddress
  else if field = 3 then cmpInt l1.State l2.State
  else if field = 4 then cmpInt l1.Cltt l2.Cltt
  else if field = 5 then cmpStr l1.ClientId l2.ClientId
  else 0

/-- Documented contract of Go `sort.Slice` with less function `less`: the
output is a permutation of the input in which no later element is less than an
earlier one.  Stability is deliberately not part of the contract — Go
documents `sort.Slice` as not guaranteed to be stable. -/
def sortSliceSpec {α : Type} (less : α → α → Bool) (input output : List α) : Prop :=
  output.Perm input ∧ output.Pairwise fun a b => less b a = false

instance {α : Type} [DecidableEq α] (less : α → α → Bool) (input output : List α) :
    Decidable (sortSliceSpec less input output) := by
  unfold sortSliceSpec
  infer_instance

/-- The less function `UpdateTable` passes to `sort.Slice` for the lease view
(src/ybyra.go, UpdateTable): `Compare < 0` ascending, `Compare > 0`
descending. -/
def leaseSliceLess (so : SortData) (a b : Lease4) : Bool :=
  if so.Asc then decide (Lease4.Compare a b so.Column < 0)
  else decide (0 < Lease4.Compare a b so.Column)

/-- State update performed by the column-header click handler `sortfunc`
(src/ybyra.go, UpdateTable): set the column to the clicked one and negate the
direction, then rebuild the table. -/
def sortfuncClick (sortorder : SortData) (col : Int) : SortData :=
  { Column := col, Asc := !sortorder.Asc }

/-- Network portion of a subnet's CIDR string: Go
`strings.Split(subnet, "/")[0]`. -/
def subnetNetChars (s : Subnet4) : List Char := (goSplitChar '/' s.Subnet.data).headD []

/-- The less function `main` passes to `sort.Slice` for the startup subnet
sort (src/ybyra.go, main): `bytes.Compare` of the parsed network addresses. -/
def subnetLess (a b : Subnet4) : Bool :=
  decide (bytesCompare ((parseIPChars (subnetNetChars a)).getD [])
    ((parseIPChars (subnetNetChars b)).getD []) < 0)

/-- Numeric value of a subnet's parsed network address bytes. -/
def subnetNetVal (s : Subnet4) : Nat :=
  byteListVal ((parseIPChars (subnetNetChars s)).getD [])

/-- The status-line text reported on a failed search. -/
def notFoundMsg (q : String) : String := "Pattern not found \"" ++ q ++ "\""

/-- Models tview `List.FindItems(query, "", false, false)` as used by this
program (every item is added with an empty secondary text): the indices, in
increasing order, of the nonempty item texts containing the query; an empty
query returns no indices. -/
def findItems (items : List String) (q : String) : List Nat :=
  if q = "" then []
  else (List.range items.length).filter fun i =>
    decide (items.getD i "" ≠ "") && goContains (items.getD i "") q

/-- Models `SearchForwardList` (src/ybyra.go): the first match index strictly
greater than the current selection is selected and `/query` reported;
otherwise the selection is unchanged and Pattern not found reported.  Returns
(new current item, status line). -/
def searchForwardListGo (items : List String) (curr : Nat) (q : String) : Nat × String :=
  match (findItems items q).find? (fun i => decide (curr < i)) with
  | some i => (i, "/" ++ q)
  | none => (curr, notFoundMsg q)

/-- Inner loop of the backward list search (src/ybyra.go, main, subnetList
input capture, the capital-N branch): scanning the match indices from the
second entry on, on the first entry `≥ curr` the previous entry is selected. -/
def backwardPickAux (curr prev : Nat) : List Nat → Option Nat
  | [] => none
  | i :: rest => if curr ≤ i then some prev else backwardPickAux curr i rest

/-- Entry point of the backward scan: the first match index can never be
selected directly because the source requires `j > 0`. -/
def backwardPick (curr : Nat) : List Nat → Option Nat
  | [] => none
  | i :: rest => backwardPickAux curr i rest

/-- Models the backward list search handler (src/ybyra.go, main, capital-N
branch on the subnet list): returns (new current item, status line); when the
scan selects the entry equal to `curr` the status is overwritten with Pattern
not found, as in the source. -/
def backwardListSearchGo (items : List String) (curr : Nat) (q : String) : Nat × String :=
  match backwardPick curr (findItems items q) with
  | some m => (m, if m = curr then notFoundMsg q else "?" ++ q)
  | none => (curr, notFoundMsg q)

/-- Table state as exposed to the searched code: cell texts, the column count
reported by GetColumnCount, the selection, and row-selectable mode. -/
structure GoTable where
  cells : List (List String)
  cols : Nat
  selRow : Nat
  selCol : Nat
  rowSelectable : Bool
deriving DecidableEq

/-- Row count of the modelled table (tview GetRowCount). -/
def rowCount (t : GoTable) : Nat := t.cells.length

/-- Cell text of the modelled table (tview GetCell(i, j).Text, empty for an
unset cell). -/
def cellText (t : GoTable) (i j : Nat) : String := (t.cells.getD i []).getD j ""

/-- Does some cell of row `i` contain the query?  The inner column loop of the
table searches. -/
def rowHasMatch (t : GoTable) (i : Nat) (q : String) : Bool :=
  (List.range t.cols).any fun j => goContains (cellText t i j) q

/-- Row scan of `SearchForwardTable` (src/ybyra.go): rows `curr+1` up to the
last row, first row with a matching cell. -/
def forwardMatchRow (t : GoTable) (q : String) : Option Nat :=
  (List.range' (t.selRow + 1) (rowCount t - (t.selRow + 1))).find? fun i => rowHasMatch t i q

/-- Row scan of the backward table search (src/ybyra.go, main, table input
capture, capital-N branch): rows `curr-1` down to row 1 — row 0, the header,
is never scanned. -/
def backwardMatchRow (t : GoTable) (q : String) : Option Nat :=
  ((List.range' 1 (t.selRow - 1)).reverse).find? fun i => rowHasMatch t i q

/-- Models `SearchForwardTable` (src/ybyra.go): on a match the row is selected
with column 0, row-selectable mode enabled and `/query` reported; otherwise
the table is unchanged and Pattern not found reported. -/
def searchForwardTableGo (t : GoTable) (q : String) : GoTable × String :=
  match forwardMatchRow t q with
  | some i => ({ t with selRow := i, selCol := 0, rowSelectable := true }, "/" ++ q)
  | none => (t, notFoundMsg q)

/-- Models the backward table search handler (src/ybyra.go, main, capital-N
branch on the table). -/
def searchBackwardTableGo (t : GoTable) (q : String) : GoTable × String :=
  match backwardMatchRow t q with
  | some i => ({ t with selRow := i, selCol := 0, rowSelectable := true }, "?" ++ q)
  | none => (t, notFoundMsg q)

/-- The wire request `DelLease` sends (src/ybyra.go, DelLease and
sendCommand): lease4-del with the ip-address argument, service dhcp4. -/
structure KeaRequestIp where
  Arguments : List (String × String)
  Command : command
  Service : List String
deriving DecidableEq

def delLeaseRequest (ip : String) : KeaRequestIp :=
  { Arguments := [("ip-address", ip)], Command := lease4Del, Service := ["dhcp4"] }

/-- Models `DelLease` (src/ybyra.go) given the decoded response array: element
0's result and text, verbatim; indexing an empty array panics, modelled as
`none`. -/
def DelLease (resp : List KeaResponse) : Option (Int × String) :=
  resp.head?.map fun r => (r.Result, r.Text)

/-- The view state the delete handler touches: the table and the status line. -/
structure AppView where
  table : GoTable
  statusline : String
deriving DecidableEq

/-- Outcome of the delete key handler. -/
inductive DelOutcome where
  | noAction : DelOutcome
  | panicked : DelOutcome
  | done : AppView → KeaRequestIp → DelOutcome
deriving DecidableEq

/-- Models the lowercase-d branch of the table input capture (src/ybyra.go,
main): guarded by row-selectable mode and leases display mode, it reads the IP
from column 1 of the selected row, performs `DelLease` (whose remote exchange
is the returned request), and writes the response text to the status line —
the table itself is not touched. -/
def deleteKeyHandler (dispmode : displayMode) (v : AppView) (resp : List KeaResponse) :
    DelOutcome :=
  if v.table.rowSelectable ∧ dispmode = displayLeases then
    match DelLease resp with
    | none => DelOutcome.panicked
    | some rt => DelOutcome.done { v with statusline := rt.2 }
        (delLeaseRequest (cellText v.table v.table.selRow 1))
  else DelOutcome.noAction

/-- Reference definition following the spec's words for claim C2: the
comparator of the active SortSpec as a non-strict order. -/
def specStableLe (so : SortData) (a b : Lease4) : Bool :=
  if so.Asc then decide (Lease4.Compare a b so.Column ≤ 0)
  else decide (0 ≤ Lease4.Compare a b so.Column)

/-- Insertion step of the reference stable sort. -/
def stableInsert {α : Type} (le : α → α → Bool) (x : α) : List α → List α
  | [] => [x]
  | y :: ys => if le x y then x :: y :: ys else y :: stableInsert le x ys

/-- Reference definition following the spec's words for claim C2: a stable
sort (insertion sort), keeping equal-comparing elements in input order. -/
def specStableSort {α : Type} (le : α → α → Bool) : List α → List α
  | [] => []
  | x :: xs => stableInsert le x (specStableSort le xs)

/-- Sample lease used by witnesses. -/
def leaseA : Lease4 :=
  { ClientId := "01:aa", Cltt := 100, FqdnFwd := false, FqdnRev := false,
    Hostname := "alpha", HwAddress := "aa:bb:cc:dd:ee:01", IpAddress := "10.0.0.9",
    State := 0, SubnetId := 1, ValidLft := 3600 }

/-- Sample lease used by witnesses: same state and timestamp as `leaseA`,
different hostname and address. -/
def leaseB : Lease4 :=
  { leaseA with ClientId := "01:ab", Hostname := "beta", IpAddress := "10.0.0.10" }

/-- Sample subnet used by witnesses. -/
def subnetA : Subnet4 :=
  { FourSixInterface := "", FourSixInterfaceId := "", FourSixSubnet := "",
    CalculateTeeTimes := false, Id := 1, OptionData := [], Pools := [],
    RebindTimer := 120, Relay := [], RenewTimer := 60, Reservations := [],
    StoreExtendedInfo := false, Subnet := "10.0.0.0/24", T1Percent := 0,
    T2Percent := 0, ValidLifetime := 3600 }

/-- Sample subnet used by witnesses, with a numerically larger network
address. -/
def subnetB : Subnet4 :=
  { subnetA with Id := 2, Subnet := "10.1.0.0/16" }

/-- Sample subnet-name list from the spec's search example. -/
def subnetItemsEx : List String := ["10.0.0.0/24", "10.0.1.0/24", "10.0.2.0/24"]

/-- Sample rendered lease table used by witnesses: a header row and two lease
rows. -/
def sampleTable : GoTable :=
  { cells := [["Hostname", "IP"], ["alpha", "10.0.0.9"], ["beta", "10.0.0.10"]],
    cols := 2, selRow := 0, selCol := 0, rowSelectable := false }

/-- Sample view with row 1 selected in row-selectable mode. -/
def sampleView : AppView :=
  { table := { sampleTable with selRow := 1, rowSelectable := true },
    statusline := "" }

/-! Helper lemmas: the comparators are sign-antisymmetric. -/

theorem charListLt_asymm : ∀ s t : List Char, charListLt s t = true → charListLt t s = false := by
  intro s
  induction s with
  | nil => intro t h; cases t <;> simp_all [charListLt]
  | cons a s ih =>
    intro t h
    cases t with
    | nil => simp_all [charListLt]
    | cons b t =>
      simp only [charListLt] at h ⊢
      rcases lt_trichotomy a b with hab | hab | hab
      · simp [not_lt_of_gt hab, hab]
      · subst hab
        simp only [lt_irrefl, if_false] at h ⊢
        exact ih t h
      · simp [not_lt_of_gt hab, hab] at h

theorem charListLt_total_ne : ∀ s t : List Char, s ≠ t →
    charListLt s t = true ∨ charListLt t s = true := by
  intro s
  induction s with
  | nil =>
    intro t h
    cases t with
    | nil => exact absurd rfl h
    | cons b t => left; simp [charListLt]
  | cons a s ih =>
    intro t h
    cases t with
    | nil => right; simp [charListLt]
    | cons b t =>
      rcases lt_trichotomy a b with hab | hab | hab
      · left; simp [charListLt, hab]
      · subst hab
        have hst : s ≠ t := fun he => h (by rw [he])
        rcases ih t hst with h1 | h1
        · left; simp [charListLt, h1]
        · right; simp [charListLt, h1]
      · right; simp [charListLt, hab]

theorem cmpStr_antisym (s t : String) : cmpStr s t = -cmpStr t s := by
  unfold cmpStr
  by_cases hst : s = t
  · simp [hst]
  · have hts : t ≠ s := fun h => hst h.symm
    have hdata : s.data ≠ t.data := fun h => hst (by cases s; cases t; exact congrArg String.mk h)
    rcases charListLt_total_ne s.data t.data hdata with h | h
    · simp [hst, hts, h, charListLt_asymm _ _ h]
    · simp [hst, hts, h, charListLt_asymm _ _ h]

theorem cmpInt_antisym (i j : Int) : cmpInt i j = -cmpInt j i := by
  unfold cmpInt
  split_ifs <;> omega

theorem bytesCompare_antisym : ∀ p q : List Nat, bytesCompare p q = -bytesCompare q p := by
  intro p
  induction p with
  | nil => intro q; cases q <;> simp [bytesCompare]
  | cons a s ih =>
    intro q
    cases q with
    | nil => simp [bytesCompare]
    | cons b t =>
      simp only [bytesCompare]
      split_ifs <;> first | exact ih t | omega

theorem Lease4.Compare_antisym (l1 l2 : Lease4) (f : Int) :
    Lease4.Compare l1 l2 f = -Lease4.Compare l2 l1 f := by
  unfold Lease4.Compare
  split_ifs <;>
    first
      | exact cmpStr_antisym _ _
      | exact bytesCompare_antisym _ _
      | exact cmpInt_antisym _ _
      | norm_num

/-! Helper lemmas: parsed IPv4 addresses compare numerically. -/

theorem parseV4Field_le (f : List Char) (v : Nat) (h : parseV4Field f = some v) : v ≤ 255 := by
  unfold parseV4Field at h
  split_ifs at h with h1 h2 h3 h4 <;> simp_all <;> omega

theorem parseIPv4_inv (s : List Char) (l : List Nat) (h : parseIPv4 s = some l) :
    ∃ a b c d, a ≤ 255 ∧ b ≤ 255 ∧ c ≤ 255 ∧ d ≤ 255 ∧ l = v4Bytes a b c d := by
  unfold parseIPv4 at h
  split at h
  · split at h
    · next a b c d h1 h2 h3 h4 =>
        injection h with h5
        exact ⟨a, b, c, d, parseV4Field_le _ _ h1, parseV4Field_le _ _ h2,
          parseV4Field_le _ _ h3, parseV4Field_le _ _ h4, h5.symm⟩
    · exact absurd h (by simp)
  · exact absurd h (by simp)

theorem parseIPChars_some (s : List Char) (l : List Nat) (h : parseIPChars s = some l) :
    parseIPv4 s = some l := by
  unfold parseIPChars at h
  rcases hf : firstIPSep s with _ | c <;> rw [hf] at h
  · exact absurd h (by simp)
  · by_cases hc : c = '.'
    · simpa [hc] using h
    · simp [hc] at h

theorem bytesCompare_v4_lt (a b c d a2 b2 c2 d2 : Nat)
    (ha : a ≤ 255) (hb : b ≤ 255) (hc : c ≤ 255) (hd : d ≤ 255)
    (ha2 : a2 ≤ 255) (hb2 : b2 ≤ 255) (hc2 : c2 ≤ 255) (hd2 : d2 ≤ 255) :
    (bytesCompare (v4Bytes a b c d) (v4Bytes a2 b2 c2 d2) < 0 ↔
      ipVal a b c d < ipVal a2 b2 c2 d2) := by
  have h : bytesCompare (v4Bytes a b c d) (v4Bytes a2 b2 c2 d2) =
      bytesCompare [a, b, c, d] [a2, b2, c2, d2] := by
    simp [v4Bytes, bytesCompare]
  rw [h]
  simp only [bytesCompare, ipVal]
  split_ifs <;> constructor <;> intro h0 <;> omega

theorem byteListVal_v4 (a b c d : Nat) :
    byteListVal (v4Bytes a b c d) = 281470681743360 + ipVal a b c d := by
  simp only [byteListVal, v4Bytes, ipVal, List.foldl]
  ring

/-! Helper lemmas: sorted lists and searches. -/

theorem sortedPermEq {α : Type} {S : α → α → Prop} :
    ∀ (l1 l2 : List α), l1.Perm l2 → l1.Pairwise S → l2.Pairwise S →
      (∀ a ∈ l1, ∀ b ∈ l1, S a b → S b a → a = b) → l1 = l2 := by
  intro l1
  induction l1 with
  | nil =>
    intro l2 hp _ _ _
    exact (hp.symm.eq_nil).symm
  | cons a t1 ih =>
    intro l2 hp hp1 hp2 hanti
    cases l2 with
    | nil => exact absurd hp.eq_nil (by simp)
    | cons b t2 =>
      by_cases hab : a = b
      · subst hab
        have ht := ih t2 hp.cons_inv (List.pairwise_cons.mp hp1).2 (List.pairwise_cons.mp hp2).2
          (fun x hx y hy => hanti x (List.mem_cons_of_mem _ hx) y (List.mem_cons_of_mem _ hy))
        rw [ht]
      · exfalso
        have hbmem : b ∈ a :: t1 := hp.mem_iff.mpr (List.mem_cons_self b t2)
        have hamem : a ∈ b :: t2 := hp.mem_iff.mp (List.mem_cons_self a t1)
        have hb1 : b ∈ t1 := by
          rcases List.mem_cons.mp hbmem with h | h
          · exact absurd h.symm hab
          · exact h
        have ha2 : a ∈ t2 := by
          rcases List.mem_cons.mp hamem with h | h
          · exact absurd h hab
          · exact h
        exact hab (hanti a (List.mem_cons_self a t1) b (List.mem_cons_of_mem _ hb1)
          (List.rel_of_pairwise_cons hp1 hb1) (List.rel_of_pairwise_cons hp2 ha2))

theorem find_first_gt : ∀ (l : List Nat) (curr : Nat), l.Pairwise (· < ·) →
    (∃ i ∈ l, curr < i) →
    ∃ i, l.find? (fun x => decide (curr < x)) = some i ∧ i ∈ l ∧ curr < i ∧
      ∀ x ∈ l, curr < x → i ≤ x
  | [], _, _, hex => by simp at hex
  | a :: t, curr, hs, hex => by
    by_cases ha : curr < a
    · refine ⟨a, ?_, List.mem_cons_self a t, ha, ?_⟩
      · rw [List.find?_cons_of_pos _ (by simpa using ha)]
      · intro x hx _
        rcases List.mem_cons.mp hx with rfl | hx
        · exact le_refl _
        · exact le_of_lt (List.rel_of_pairwise_cons hs hx)
    · have hex2 : ∃ i ∈ t, curr < i := by
        rcases hex with ⟨i, hi, hci⟩
        rcases List.mem_cons.mp hi with rfl | hi
        · exact absurd hci ha
        · exact ⟨i, hi, hci⟩
      rcases find_first_gt t curr (List.pairwise_cons.mp hs).2 hex2 with ⟨i, hfind, hmem, hci, hmin⟩
      refine ⟨i, ?_, List.mem_cons_of_mem _ hmem, hci, ?_⟩
      · rw [List.find?_cons_of_neg _ (by simpa using ha), hfind]
      · intro x hx hcx
        rcases List.mem_cons.mp hx with rfl | hx
        · exact absurd hcx ha
        · exact hmin x hx hcx

theorem backwardPickAux_spec : ∀ (rest : List Nat) (prev curr : Nat),
    (prev :: rest).Pairwise (· < ·) → prev < curr → (∃ y ∈ rest, curr ≤ y) →
    ∃ m, backwardPickAux curr prev rest = some m ∧ m < curr ∧ m ∈ prev :: rest ∧
      ∀ x ∈ prev :: rest, x < curr → x ≤ m
  | [], _, _, _, _, hex => by simp at hex
  | i :: rest2, prev, curr, hs, hpc, hex => by
    by_cases hci : curr ≤ i
    · refine ⟨prev, by simp [backwardPickAux, hci], hpc, List.mem_cons_self _ _, ?_⟩
      intro x hx hxc
      rcases List.mem_cons.mp hx with rfl | hx
      · exact le_refl _
      · rcases List.mem_cons.mp hx with rfl | hx
        · omega
        · have : i < x := List.rel_of_pairwise_cons (List.pairwise_cons.mp hs).2 hx
          omega
    · have hic : i < curr := by omega
      have hs2 : (i :: rest2).Pairwise (· < ·) := (List.pairwise_cons.mp hs).2
      have hex2 : ∃ y ∈ rest2, curr ≤ y := by
        rcases hex with ⟨y, hy, hcy⟩
        rcases List.mem_cons.mp hy with rfl | hy
        · omega
        · exact ⟨y, hy, hcy⟩
      rcases backwardPickAux_spec rest2 i curr hs2 hic hex2 with ⟨m, hf, hmc, hmem, hmax⟩
      refine ⟨m, by simp [backwardPickAux, hci, hf], hmc, ?_, ?_⟩
      · rcases List.mem_cons.mp hmem with rfl | hm
        · exact List.mem_cons_of_mem _ (List.mem_cons_self _ _)
        · exact List.mem_cons_of_mem _ (List.mem_cons_of_mem _ hm)
      · intro x hx hxc
        rcases List.mem_cons.mp hx with rfl | hx
        · have hpi : x < i := List.rel_of_pairwise_cons hs (List.mem_cons_self _ _)
          have him : i ≤ m := by
            rcases List.mem_cons.mp hmem with rfl | hm
            · exact le_refl _
            · exact le_of_lt (List.rel_of_pairwise_cons hs2 hm)
          omega
        · exact hmax x hx hxc

theorem findItems_sorted (items : List String) (q : String) :
    (findItems items q).Pairwise (· < ·) := by
  unfold findItems
  split_ifs
  · simp
  · exact (List.pairwise_lt_range _).sublist (List.filter_sublist _)

theorem goContainsList_nil (s : List Char) : goContainsList s [] = true := by
  cases s <;> simp [goContainsList, leadsWith]

theorem goContains_empty (s : String) : goContains s "" = true :=
  goContainsList_nil s.data

theorem range'_succ_one (s n : Nat) : List.range' s (n + 1) = s :: List.range' (s + 1) n := by
  simpa using List.range'_succ s n 1

/-! Claim theorems. -/

/-- C1 (amended): clicking a lease-table column header sets the SortData column
to the clicked column and negates the direction — it does not reset a new
column to ascending — so a click on the current column is a pure direction
flip; the triggered rebuild re-sorts a freshly fetched lease list by the new
SortData. -/
theorem C1_sort_toggle (so : SortData) (col : Int) (fresh rows : List Lease4)
    (h : sortSliceSpec (leaseSliceLess (sortfuncClick so col)) fresh rows) :
    sortfuncClick so col = ⟨col, !so.Asc⟩ ∧
      (col = so.Column → sortfuncClick so col = ⟨so.Column, !so.Asc⟩) ∧
      rows.Perm fresh := by
  refine ⟨rfl, ?_, h.1⟩
  intro hc
  subst hc
  rfl

/-- C1 witness: clicking the current column 4 with ascending direction flips
to descending, and a rebuild output for the fresh fetch is a permutation of
it. -/
theorem C1_sort_toggle_witness :
    sortSliceSpec (leaseSliceLess (sortfuncClick ⟨4, true⟩ 4)) [leaseA, leaseB]
        [leaseA, leaseB] ∧
      (sortfuncClick ⟨4, true⟩ 4 = ⟨4, !true⟩ ∧
        ((4 : Int) = 4 → sortfuncClick ⟨4, true⟩ 4 = ⟨4, !true⟩) ∧
        ([leaseA, leaseB] : List Lease4).Perm [leaseA, leaseB]) := by
  have h : sortSliceSpec (leaseSliceLess (sortfuncClick ⟨4, true⟩ 4)) [leaseA, leaseB]
      [leaseA, leaseB] := by decide
  exact ⟨h, C1_sort_toggle ⟨4, true⟩ 4 _ _ h⟩

/-- C1 counterexample: clicking column 1 while the SortData is (column 4,
ascending) yields (column 1, descending), not (column 1, ascending) as the
claim states for a column different from the current one. -/
theorem C1_sort_toggle_cex :
    (1 : Int) ≠ 4 ∧ sortfuncClick ⟨4, true⟩ 1 = ⟨1, false⟩ ∧
      sortfuncClick ⟨4, true⟩ 1 ≠ ⟨1, true⟩ :=
  ⟨by decide, rfl, by decide⟩

/-- C2 (amended): any rendered row order satisfying the sort.Slice contract is
a permutation of the fetched leases in which every pair of rows is ordered by
the active SortSpec's column and direction — leases comparing strictly appear
in comparator order; equal-comparing leases need not keep their fetched
order. -/
theorem C2_render_order (so : SortData) (input output : List Lease4)
    (h : sortSliceSpec (leaseSliceLess so) input output) :
    output.Perm input ∧
      output.Pairwise fun a b =>
        if so.Asc then Lease4.Compare a b so.Column ≤ 0
        else 0 ≤ Lease4.Compare a b so.Column := by
  refine ⟨h.1, h.2.imp ?_⟩
  intro a b hab
  have hanti := Lease4.Compare_antisym a b so.Column
  cases hasc : so.Asc
  · simp only [leaseSliceLess, hasc] at hab
    simp only [Bool.false_eq_true, if_false, decide_eq_false_iff_not, not_lt] at hab ⊢
    omega
  · simp only [leaseSliceLess, hasc] at hab
    simp only [if_true, decide_eq_false_iff_not, not_lt] at hab ⊢
    omega

/-- C2 witness: sorting two hostname-distinct leases ascending by hostname. -/
theorem C2_render_order_witness :
    sortSliceSpec (leaseSliceLess ⟨0, true⟩) [leaseB, leaseA] [leaseA, leaseB] ∧
      (([leaseA, leaseB] : List Lease4).Perm [leaseB, leaseA] ∧
        ([leaseA, leaseB] : List Lease4).Pairwise fun a b =>
          if (true : Bool) then Lease4.Compare a b 0 ≤ 0 else 0 ≤ Lease4.Compare a b 0) := by
  have h : sortSliceSpec (leaseSliceLess ⟨0, true⟩) [leaseB, leaseA] [leaseA, leaseB] := by
    decide
  exact ⟨h, C2_render_order ⟨0, true⟩ _ _ h⟩

/-- C2 counterexample: with two leases equal on the active column (state), the
output [leaseB, leaseA] satisfies the sort.Slice contract for the fetched
sequence [leaseA, leaseB], yet it differs from the stable sort of that
sequence, which keeps the fetched order of the tied leases. -/
theorem C2_render_order_cex :
    sortSliceSpec (leaseSliceLess ⟨3, true⟩) [leaseA, leaseB] [leaseB, leaseA] ∧
      specStableSort (specStableLe ⟨3, true⟩) [leaseA, leaseB] = [leaseA, leaseB] ∧
      ([leaseB, leaseA] : List Lease4) ≠ [leaseA, leaseB] :=
  ⟨by decide, by decide, by decide⟩

/-- C3 (amended): when the query has matches both strictly below and at or
above the current selection, backward list search selects the greatest
matching index strictly below the current selection and reports it found —
in that case the selected index is indeed smaller than the current one. -/
theorem C3_backward_list (items : List String) (curr : Nat) (q : String)
    (hbelow : ∃ m ∈ findItems items q, m < curr)
    (habove : ∃ m ∈ findItems items q, curr ≤ m) :
    ∃ m, backwardListSearchGo items curr q = (m, "?" ++ q) ∧ m < curr ∧
      m ∈ findItems items q ∧ ∀ x ∈ findItems items q, x < curr → x ≤ m := by
  have hs := findItems_sorted items q
  rcases hfi : findItems items q with _ | ⟨i0, rest⟩
  · rw [hfi] at hbelow
    simp at hbelow
  · rw [hfi] at hbelow habove hs
    have hi0 : i0 < curr := by
      rcases hbelow with ⟨m, hm, hmc⟩
      rcases List.mem_cons.mp hm with rfl | hm
      · exact hmc
      · have := List.rel_of_pairwise_cons hs hm
        omega
    have hex : ∃ y ∈ rest, curr ≤ y := by
      rcases habove with ⟨y, hy, hcy⟩
      rcases List.mem_cons.mp hy with rfl | hy
      · omega
      · exact ⟨y, hy, hcy⟩
    rcases backwardPickAux_spec rest i0 curr hs hi0 hex with ⟨m, hf, hmc, hmem, hmax⟩
    refine ⟨m, ?_, hmc, hmem, ?_⟩
    · unfold backwardListSearchGo
      rw [hfi]
      show (match backwardPickAux curr i0 rest with
        | some m => (m, if m = curr then notFoundMsg q else "?" ++ q)
        | none => (curr, notFoundMsg q)) = (m, "?" ++ q)
      rw [hf]
      simp only []
      rw [if_neg (by omega)]
    · intro x hx hxc
      exact hmax x hx hxc

/-- C3 witness: matches at 0, 2 and 4 with the selection at 3 — backward
search selects 2, the greatest match below the selection. -/
theorem C3_backward_list_witness :
    (∃ m ∈ findItems ["x0", "a", "x2", "b", "x4"] "x", m < 3) ∧
      (∃ m ∈ findItems ["x0", "a", "x2", "b", "x4"] "x", 3 ≤ m) ∧
      ∃ m, backwardListSearchGo ["x0", "a", "x2", "b", "x4"] 3 "x" = (m, "?" ++ "x") ∧
        m < 3 ∧ m ∈ findItems ["x0", "a", "x2", "b", "x4"] "x" ∧
        ∀ x ∈ findItems ["x0", "a", "x2", "b", "x4"] "x", x < 3 → x ≤ m :=
  ⟨by decide, by decide, C3_backward_list _ 3 "x" (by decide) (by decide)⟩

/-- C3 counterexample: with matches at indices 5 and 7 and the selection at
index 3, backward search selects index 5 — strictly greater than the current
selection — and reports it found. -/
theorem C3_backward_list_cex :
    backwardListSearchGo ["a0", "a1", "a2", "a3", "a4", "x5", "a6", "x7"] 3 "x" =
        (5, "?x") ∧ 3 < 5 :=
  ⟨by decide, by decide⟩

/-- C4 (amended): reversing a valid ascending sort.Slice result for column C
is a valid descending result; when no two fetched leases compare equal on C
the sorted orders are unique, so reversing the ascending sort gives exactly
the descending sort.  With ties, the two need not be the same sequence. -/
theorem C4_reverse_flip (col : Int) (input out1 out2 : List Lease4)
    (h1 : sortSliceSpec (leaseSliceLess ⟨col, true⟩) input out1)
    (h2 : sortSliceSpec (leaseSliceLess ⟨col, false⟩) input out2) :
    sortSliceSpec (leaseSliceLess ⟨col, false⟩) input out1.reverse ∧
      ((∀ a ∈ input, ∀ b ∈ input, Lease4.Compare a b col = 0 → a = b) →
        out1.reverse = out2) := by
  have hrev : sortSliceSpec (leaseSliceLess ⟨col, false⟩) input out1.reverse := by
    constructor
    · exact out1.reverse_perm.trans h1.1
    · rw [List.pairwise_reverse]
      refine h1.2.imp ?_
      intro a b hab
      have hanti := Lease4.Compare_antisym a b col
      simp only [leaseSliceLess] at hab
      simp only [if_true, decide_eq_false_iff_not, not_lt] at hab
      simp only [Function.flip_def, leaseSliceLess, Bool.false_eq_true, if_false,
        decide_eq_false_iff_not, not_lt]
      omega
  refine ⟨hrev, fun hnt => sortedPermEq _ _ (hrev.1.trans h2.1.symm) hrev.2 h2.2 ?_⟩
  intro a ha b hb hSab hSba
  have hanti := Lease4.Compare_antisym a b col
  simp only [leaseSliceLess, Bool.false_eq_true, if_false, decide_eq_false_iff_not,
    not_lt] at hSab hSba
  have hmema : a ∈ input := hrev.1.mem_iff.mp ha
  have hmemb : b ∈ input := hrev.1.mem_iff.mp hb
  exact hnt a hmema b hmemb (by omega)

/-- C4 witness: ascending and descending hostname sorts of two
hostname-distinct leases; reversing the ascending result gives the descending
result. -/
theorem C4_reverse_flip_witness :
    sortSliceSpec (leaseSliceLess ⟨0, true⟩) [leaseB, leaseA] [leaseA, leaseB] ∧
      sortSliceSpec (leaseSliceLess ⟨0, false⟩) [leaseB, leaseA] [leaseB, leaseA] ∧
      ([leaseA, leaseB] : List Lease4).reverse = [leaseB, leaseA] := by
  have h1 : sortSliceSpec (leaseSliceLess ⟨0, true⟩) [leaseB, leaseA] [leaseA, leaseB] := by
    decide
  have h2 : sortSliceSpec (leaseSliceLess ⟨0, false⟩) [leaseB, leaseA] [leaseB, leaseA] := by
    decide
  have hnt : ∀ a ∈ [leaseB, leaseA], ∀ b ∈ [leaseB, leaseA],
      Lease4.Compare a b 0 = 0 → a = b := by decide
  exact ⟨h1, h2, (C4_reverse_flip 0 _ _ _ h1 h2).2 hnt⟩

/-- C4 counterexample: with two leases tied on column 3, [leaseA, leaseB] is a
valid ascending and also a valid descending sort.Slice result, yet reversing
the ascending result gives [leaseB, leaseA], which is not that descending
result. -/
theorem C4_reverse_flip_cex :
    sortSliceSpec (leaseSliceLess ⟨3, true⟩) [leaseA, leaseB] [leaseA, leaseB] ∧
      sortSliceSpec (leaseSliceLess ⟨3, false⟩) [leaseA, leaseB] [leaseA, leaseB] ∧
      ([leaseA, leaseB] : List Lease4).reverse ≠ [leaseA, leaseB] :=
  ⟨by decide, by decide, by decide⟩

/-- C5: lease comparison on the ipAddress column orders by the numeric value
of the parsed address bytes — whenever both addresses parse, the comparison
is negative exactly when the first address's byte value is numerically
smaller. -/
theorem C5_ip_numeric (l1 l2 : Lease4) (p q : List Nat)
    (h1 : parseIP l1.IpAddress = some p) (h2 : parseIP l2.IpAddress = some q) :
    (Lease4.Compare l1 l2 1 < 0 ↔ byteListVal p < byteListVal q) := by
  rcases parseIPv4_inv _ _ (parseIPChars_some _ _ h1) with
    ⟨a, b, c, d, ha, hb, hc, hd, rfl⟩
  rcases parseIPv4_inv _ _ (parseIPChars_some _ _ h2) with
    ⟨a2, b2, c2, d2, ha2, hb2, hc2, hd2, rfl⟩
  have hcmp : Lease4.Compare l1 l2 1 =
      bytesCompare (v4Bytes a b c d) (v4Bytes a2 b2 c2 d2) := by
    simp [Lease4.Compare, ipBytes, h1, h2]
  rw [hcmp, byteListVal_v4, byteListVal_v4,
    bytesCompare_v4_lt a b c d a2 b2 c2 d2 ha hb hc hd ha2 hb2 hc2 hd2]
  omega

/-- C5 witness: the spec's example — "10.0.0.9" compares less than
"10.0.0.10" on the ipAddress column, though it is textually greater. -/
theorem C5_ip_numeric_witness :
    parseIP leaseA.IpAddress = some (v4Bytes 10 0 0 9) ∧
      parseIP leaseB.IpAddress = some (v4Bytes 10 0 0 10) ∧
      Lease4.Compare leaseA leaseB 1 < 0 ∧ cmpStr leaseA.IpAddress leaseB.IpAddress = 1 := by
  have h1 : parseIP leaseA.IpAddress = some (v4Bytes 10 0 0 9) := by decide
  have h2 : parseIP leaseB.IpAddress = some (v4Bytes 10 0 0 10) := by decide
  exact ⟨h1, h2, (C5_ip_numeric leaseA leaseB _ _ h1 h2).mpr (by decide), by decide⟩

/-- C6: any subnet order satisfying the sort.Slice contract of the startup
subnet sort is non-decreasing at every adjacent pair in the numeric value of
the parsed network-address portion of the CIDR, whenever the network portions
parse as IPv4 addresses. -/
theorem C6_subnet_sorted (input out : List Subnet4)
    (h : sortSliceSpec subnetLess input out)
    (hv : ∀ s ∈ out, ∃ bs, parseIPChars (subnetNetChars s) = some bs) :
    out.Chain' fun s1 s2 => subnetNetVal s1 ≤ subnetNetVal s2 := by
  refine List.Pairwise.chain' (h.2.imp_of_mem ?_)
  intro s1 s2 hm1 hm2 hless
  rcases hv s1 hm1 with ⟨bs1, hbs1⟩
  rcases hv s2 hm2 with ⟨bs2, hbs2⟩
  rcases parseIPv4_inv _ _ (parseIPChars_some _ _ hbs1) with
    ⟨a, b, c, d, ha, hb, hc, hd, rfl⟩
  rcases parseIPv4_inv _ _ (parseIPChars_some _ _ hbs2) with
    ⟨a2, b2, c2, d2, ha2, hb2, hc2, hd2, rfl⟩
  unfold subnetLess at hless
  rw [hbs1, hbs2] at hless
  simp only [Option.getD_some, decide_eq_false_iff_not, not_lt] at hless
  unfold subnetNetVal
  rw [hbs1, hbs2]
  simp only [Option.getD_some]
  rw [byteListVal_v4, byteListVal_v4]
  have hiff := bytesCompare_v4_lt a2 b2 c2 d2 a b c d ha2 hb2 hc2 hd2 ha hb hc hd
  rw [← not_lt] at hless
  rw [hiff] at hless
  omega

/-- C6 witness: two subnets in contract order with parsing network portions. -/
theorem C6_subnet_sorted_witness :
    sortSliceSpec subnetLess [subnetB, subnetA] [subnetA, subnetB] ∧
      (∀ s ∈ [subnetA, subnetB], ∃ bs, parseIPChars (subnetNetChars s) = some bs) ∧
      ([subnetA, subnetB] : List Subnet4).Chain' fun s1 s2 =>
        subnetNetVal s1 ≤ subnetNetVal s2 := by
  have h : sortSliceSpec subnetLess [subnetB, subnetA] [subnetA, subnetB] := by decide
  have hv : ∀ s ∈ [subnetA, subnetB], ∃ bs, parseIPChars (subnetNetChars s) = some bs := by
    intro s hs
    rcases List.mem_cons.mp hs with rfl | hs
    · exact ⟨v4Bytes 10 0 0 0, by decide⟩
    · rcases List.mem_cons.mp hs with rfl | hs
      · exact ⟨v4Bytes 10 1 0 0, by decide⟩
      · simp at hs
  exact ⟨h, hv, C6_subnet_sorted _ _ h hv⟩

/-- C7: forward list search selects the first matching index strictly greater
than the current selection, and when no match lies strictly beyond the current
selection it reports Pattern not found with the selection unchanged, even if
matches exist at or before the current position — no wraparound. -/
theorem C7_forward_list (items : List String) (curr : Nat) (q : String) :
    ((∃ m ∈ findItems items q, curr < m) →
      ∃ i, searchForwardListGo items curr q = (i, "/" ++ q) ∧ i ∈ findItems items q ∧
        curr < i ∧ ∀ x ∈ findItems items q, curr < x → i ≤ x) ∧
      ((∀ x ∈ findItems items q, x ≤ curr) →
        searchForwardListGo items curr q = (curr, notFoundMsg q)) := by
  constructor
  · intro hex
    rcases find_first_gt (findItems items q) curr (findItems_sorted items q) hex with
      ⟨i, hfind, hmem, hci, hmin⟩
    refine ⟨i, ?_, hmem, hci, hmin⟩
    unfold searchForwardListGo
    rw [hfind]
  · intro hall
    unfold searchForwardListGo
    rw [List.find?_eq_none.mpr fun x hx => by simpa using Nat.not_lt.mpr (hall x hx)]

/-- C7 witness: the spec's example — items 10.0.0.0/24, 10.0.1.0/24,
10.0.2.0/24 and query 10.0; repeated forward search from index 0 visits index
1, then 2, then reports Pattern not found. -/
theorem C7_forward_list_witness :
    searchForwardListGo subnetItemsEx 0 "10.0" = (1, "/" ++ "10.0") ∧
      searchForwardListGo subnetItemsEx 1 "10.0" = (2, "/" ++ "10.0") ∧
      (∀ x ∈ findItems subnetItemsEx "10.0", x ≤ 2) ∧
      searchForwardListGo subnetItemsEx 2 "10.0" = (2, notFoundMsg "10.0") :=
  ⟨by decide, by decide, by decide, (C7_forward_list subnetItemsEx 2 "10.0").2 (by decide)⟩

/-- C8: forward table search only ever selects a row strictly below the
current selection, backward table search only a row strictly above it (and
never the header row 0), and a backward search issued at row 0 reports
Pattern not found with the table unchanged. -/
theorem C8_table_bounds (t : GoTable) (q : String) :
    (∀ i, forwardMatchRow t q = some i →
      t.selRow < i ∧ i < rowCount t ∧
        searchForwardTableGo t q =
          ({ t with selRow := i, selCol := 0, rowSelectable := true }, "/" ++ q)) ∧
      (∀ i, backwardMatchRow t q = some i →
        0 < i ∧ i < t.selRow ∧
          searchBackwardTableGo t q =
            ({ t with selRow := i, selCol := 0, rowSelectable := true }, "?" ++ q)) ∧
      (t.selRow = 0 → searchBackwardTableGo t q = (t, notFoundMsg q)) := by
  refine ⟨?_, ?_, ?_⟩
  · intro i hi
    have hmem := List.mem_of_find?_eq_some hi
    rw [List.mem_range'_1] at hmem
    refine ⟨by omega, by omega, ?_⟩
    unfold searchForwardTableGo
    rw [hi]
  · intro i hi
    have hmem := List.mem_of_find?_eq_some hi
    rw [List.mem_reverse, List.mem_range'_1] at hmem
    refine ⟨by omega, by omega, ?_⟩
    unfold searchBackwardTableGo
    rw [hi]
  · intro h0
    unfold searchBackwardTableGo backwardMatchRow
    rw [h0]
    rfl

/-- C8 witness: a backward search with the selection at row 0 on the sample
table reports Pattern not found and leaves the table unchanged. -/
theorem C8_table_bounds_witness :
    sampleTable.selRow = 0 ∧
      searchBackwardTableGo sampleTable "alpha" = (sampleTable, notFoundMsg "alpha") :=
  ⟨rfl, (C8_table_bounds sampleTable "alpha").2.2 rfl⟩

/-- C9: with a selectable row in leases display mode, the delete key handler
issues lease4-del carrying the IP text read from column 1 of the selected row,
writes the remote response's text verbatim to the status line whatever the
result code, and leaves the table untouched. -/
theorem C9_delete (dispmode : displayMode) (v : AppView) (r : KeaResponse)
    (rest : List KeaResponse) (hsel : v.table.rowSelectable = true)
    (hmode : dispmode = displayLeases) :
    deleteKeyHandler dispmode v (r :: rest) =
      DelOutcome.done { table := v.table, statusline := r.Text }
        (delLeaseRequest (cellText v.table v.table.selRow 1)) ∧
      (delLeaseRequest (cellText v.table v.table.selRow 1)).Command = lease4Del ∧
      (delLeaseRequest (cellText v.table v.table.selRow 1)).Arguments =
        [("ip-address", cellText v.table v.table.selRow 1)] := by
  refine ⟨?_, rfl, rfl⟩
  unfold deleteKeyHandler
  rw [if_pos ⟨by simp [hsel], hmode⟩]
  rfl

/-- C9 witness: a remote response with result 1 and text "lease not found"
surfaces exactly that text on the status line and leaves the table of the
sample view unchanged. -/
theorem C9_delete_witness :
    sampleView.table.rowSelectable = true ∧
      deleteKeyHandler displayLeases sampleView [⟨[], 1, "lease not found"⟩] =
        DelOutcome.done { table := sampleView.table, statusline := "lease not found" }
          (delLeaseRequest "10.0.0.9") :=
  ⟨rfl, (C9_delete displayLeases sampleView ⟨[], 1, "lease not found"⟩ [] rfl rfl).1⟩

/-- C10: with the empty query, forward table search from a valid selected row
selects exactly the next row (column reset to 0, row-selectable mode enabled)
whenever that row exists, because every cell contains the empty string; it
reports Pattern not found exactly when the selection is on the last row. -/
theorem C10_empty_query (t : GoTable) (hc : 0 < t.cols) (hr : t.selRow < rowCount t) :
    (t.selRow + 1 < rowCount t →
      searchForwardTableGo t "" =
        ({ t with selRow := t.selRow + 1, selCol := 0, rowSelectable := true }, "/" ++ "")) ∧
      (searchForwardTableGo t "" = (t, notFoundMsg "") ↔ t.selRow = rowCount t - 1) := by
  have hany : ∀ i, rowHasMatch t i "" = true := by
    intro i
    unfold rowHasMatch
    rw [List.any_eq_true]
    exact ⟨0, List.mem_range.mpr hc, goContains_empty _⟩
  have hfwd : t.selRow + 1 < rowCount t → forwardMatchRow t "" = some (t.selRow + 1) := by
    intro hlt
    unfold forwardMatchRow
    have hn : rowCount t - (t.selRow + 1) = (rowCount t - (t.selRow + 1) - 1) + 1 := by omega
    rw [hn, range'_succ_one, List.find?_cons_of_pos _ (by simpa using hany (t.selRow + 1))]
  have hsel : t.selRow + 1 < rowCount t →
      searchForwardTableGo t "" =
        ({ t with selRow := t.selRow + 1, selCol := 0, rowSelectable := true }, "/" ++ "") := by
    intro hlt
    unfold searchForwardTableGo
    rw [hfwd hlt]
  refine ⟨hsel, ?_, ?_⟩
  · intro heq
    by_cases hlt : t.selRow + 1 < rowCount t
    · rw [hsel hlt] at heq
      have hcontra : ("/" ++ "" : String) = notFoundMsg "" := congrArg Prod.snd heq
      exact absurd hcontra (by decide)
    · omega
  · intro hlast
    have hz : rowCount t - (t.selRow + 1) = 0 := by omega
    unfold searchForwardTableGo forwardMatchRow
    rw [hz]
    rfl

/-- C10 witness: on the sample table with the selection at row 0, the
empty-query forward search selects row 1 with column 0 and row-selectable
mode. -/
theorem C10_empty_query_witness :
    0 < sampleTable.cols ∧ sampleTable.selRow < rowCount sampleTable ∧
      sampleTable.selRow + 1 < rowCount sampleTable ∧
      searchForwardTableGo sampleTable "" =
        ({ sampleTable with selRow := 1, selCol := 0, rowSelectable := true }, "/" ++ "") :=
  ⟨by decide, by decide, by decide,
    (C10_empty_query sampleTable (by decide) (by decide)).1 (by decide)⟩

end Ybyra
